import Mathlib

/-
Shallow embedding of the wazuh HLP compiler/executor
(src/engine/source/hlp/src/logQLParser.cpp, src/engine/source/hlp/src/hlp.cpp)
and of the decoder asset builder
(src/engine/source/builder/builders/assetBuilderDecoder.cpp).

Pattern and event strings are modelled as `List Char`; the NUL terminator of
the C strings is modelled by `chAt`, which reads NUL at and beyond the end of
the list (the weakest sound model that makes every read total; the sources
operate on NUL-terminated buffers through raw pointers).
-/

def nulChar : Char := Char.ofNat 0

/-- Reads the byte at position `pos` of a NUL-terminated buffer holding `s`:
positions at or past `s.length` read as NUL. -/
def chAt (s : List Char) (pos : Nat) : Char := s.getD pos nulChar

/-! ### Tokenizer (logQLParser.cpp, `getToken`) -/

inductive TokenType where
  | OpenAngle
  | CloseAngle
  | QuestionMark
  | Literal
  | EndOfExpr
  | Unknown
  | Error
deriving DecidableEq

structure Token where
  text : List Char
  type : TokenType
deriving DecidableEq

/-- The literal-run loop of `getToken`, on the input remaining after the run's
first character.  The `escaped` flag is modelled exactly as in the source: it
is recomputed AFTER advancing, from the character just advanced to
(`escaped = tk.stream[0] == '\\'`), so it describes the character currently
under test rather than the preceding one. Returns the number of characters
consumed by the loop. -/
def runLen : List Char → Bool → Nat
  | [], _ => 0
  | c :: rest, escaped =>
    if c ≠ nulChar ∧ (escaped = true ∨ (c ≠ '<' ∧ c ≠ '>')) then
      1 + runLen rest (decide (rest.headD nulChar = '\\'))
    else 0

/-- `getToken`: reads one token at `pos`, returns it with the advanced cursor.
Note that the cursor is advanced unconditionally (`tk.stream++`), also in the
end-of-string case. -/
def getToken (s : List Char) (pos : Nat) : Token × Nat :=
  if chAt s pos = '<' then ({ text := ['<'], type := TokenType.OpenAngle }, pos + 1)
  else if chAt s pos = '>' then ({ text := ['>'], type := TokenType.CloseAngle }, pos + 1)
  else if chAt s pos = '?' then ({ text := ['?'], type := TokenType.QuestionMark }, pos + 1)
  else if chAt s pos = nulChar then ({ text := [], type := TokenType.EndOfExpr }, pos + 1)
  else
    ({ text := List.take (runLen (List.drop (pos + 1) s) false + 1) (List.drop pos s),
       type := TokenType.Literal },
     pos + 1 + runLen (List.drop (pos + 1) s) false)

/-- Repeated tokenization: calls `getToken` until it yields `EndOfExpr`
(inclusive), returning the token sequence and the final cursor; `none` on fuel
exhaustion. -/
def runTokenizer (s : List Char) : Nat → Nat → Option (List Token × Nat)
  | 0, _ => none
  | fuel + 1, pos =>
    let t := getToken s pos
    if t.1.type = TokenType.EndOfExpr then some ([t.1], t.2)
    else
      match runTokenizer s fuel t.2 with
      | some (ts, q) => some (t.1 :: ts, q)
      | none => none

/-! ### Expression parser (logQLParser.cpp, `parseCapture`, `parseLogQlExpr`) -/

inductive ExpressionType where
  | Capture
  | OptionalCapture
  | OrCapture
  | Literal
deriving DecidableEq

structure Expression where
  text : List Char
  type : ExpressionType
  endToken : Char
deriving DecidableEq

/-- `std::string(ptr)` at a buffer position: the characters up to the first
NUL. -/
def cstr (s : List Char) (pos : Nat) : List Char :=
  (List.drop pos s).takeWhile (fun c => c ≠ nulChar)

def msgHead : List Char := "[HLP]Invalid LogQL expression at [".data

def msgUnableCapture (s : List Char) (pos : Nat) : List Char :=
  msgHead ++ cstr s pos ++ "]. Unable to parse capture expression.".data

def msgBackToBack (s : List Char) (pos : Nat) : List Char :=
  msgHead ++ cstr s pos ++ "]. Can't captures back to back".data

def msgUnknownToken : List Char := "[HLP] Invalid LogQl expression. Unknown token found.".data

inductive HlpErr where
  | invalidArgument (msg : List Char)
  | runtime (msg : List Char)
deriving DecidableEq

/-- `parseCapture`, entered after the opening `<` has been consumed.  Returns
the expressions it appends and the new cursor, or `none` where the source
returns `false` (the caller then raises the capture diagnostic). -/
def parseCapture (s : List Char) (pos : Nat) : Option (List Expression × Nat) :=
  let t1 := getToken s pos
  let step :=
    if t1.1.type = TokenType.QuestionMark then
      let t2 := getToken s t1.2
      (true, t2.1, t2.2)
    else (false, t1.1, t1.2)
  let optional := step.1
  let tok := step.2.1
  let pos1 := step.2.2
  if tok.type = TokenType.Literal then
    let tc := getToken s pos1
    if tc.1.type = TokenType.CloseAngle then
      let ty := if optional then ExpressionType.OptionalCapture else ExpressionType.Capture
      if (getToken s tc.2).1.type = TokenType.QuestionMark then
        -- <name1>?<name2>: discard the peeked '?', require '<'
        let tq := getToken s tc.2
        let topen := getToken s tq.2
        if topen.1.type = TokenType.OpenAngle then
          let orEnd := getToken s topen.2
          let tc2 := getToken s orEnd.2
          if tc2.1.type = TokenType.CloseAngle then
            -- the first capture is retagged OrCapture (overriding any
            -- OptionalCapture tag); both get the endToken from peekChar
            let e := chAt s tc2.2
            some ([{ text := tok.text, type := ExpressionType.OrCapture, endToken := e },
                   { text := orEnd.1.text, type := ExpressionType.Capture, endToken := e }],
                  tc2.2)
          else none
        else none
      else
        some ([{ text := tok.text, type := ty, endToken := chAt s tc.2 }], tc.2)
    else none
  else none

/-- The loop of `parseLogQlExpr`.  `fuel` only bounds the iteration count for
structural recursion; every iteration strictly advances the cursor, so
`s.length + 1` iterations always suffice. -/
def parseLoop (s : List Char) : Nat → Nat → List Expression → Except HlpErr (List Expression)
  | 0, _, _ => Except.error (HlpErr.runtime "fuel exhausted".data)
  | fuel + 1, pos, acc =>
    let t := getToken s pos
    if t.1.type = TokenType.OpenAngle then
      -- prev = tokenizer.stream - 1: the position of the consumed '<'
      match parseCapture s t.2 with
      | none => Except.error (HlpErr.runtime (msgUnableCapture s pos))
      | some (es, pos2) =>
        if (getToken s pos2).1.type = TokenType.OpenAngle then
          Except.error (HlpErr.runtime (msgBackToBack s pos))
        else parseLoop s fuel pos2 (acc ++ es)
    else if t.1.type = TokenType.Literal then
      parseLoop s fuel t.2
        (acc ++ [{ text := t.1.text, type := ExpressionType.Literal, endToken := nulChar }])
    else if t.1.type = TokenType.EndOfExpr then Except.ok acc
    else Except.error (HlpErr.runtime msgUnknownToken)

def parseLogQlExpr (s : List Char) : Except HlpErr (List Expression) :=
  parseLoop s (s.length + 1) 0 []

/-! ### Parser compiler (hlp.cpp, `createParserFromExpresion`, `getParserList`) -/

inductive ParserType where
  | Literal
  | Any
  | ToEnd
  | IP
  | Ts
  | URL
  | JSON
  | Map
  | Domain
  | FilePathT  -- `FilePath` in the source
  | UserAgent
  | Number
  | QuotedString
  | Boolean
deriving DecidableEq

structure Parser where
  name : List Char
  type : ParserType
  expType : ExpressionType
  endToken : Char
  options : List (List Char)
deriving DecidableEq

/-- `splitSlashSeparatedField` (hlp.cpp): pieces before each '/', plus the
trailing remainder when non-empty. -/
def splitSlashAux : List Char → List Char → List (List Char)
  | [], cur => if cur.isEmpty then [] else [cur]
  | c :: rest, cur =>
    if c = '/' then cur :: splitSlashAux rest [] else splitSlashAux rest (cur ++ [c])

def splitSlashSeparatedField (str : List Char) : List (List Char) := splitSlashAux str []

def kTempTypeMapper (k : List Char) : Option ParserType :=
  if k = "json".data then some ParserType.JSON
  else if k = "map".data then some ParserType.Map
  else if k = "timestamp".data then some ParserType.Ts
  else if k = "domain".data then some ParserType.Domain
  else if k = "filepath".data then some ParserType.FilePathT
  else if k = "useragent".data then some ParserType.UserAgent
  else if k = "url".data then some ParserType.URL
  else if k = "quoted_string".data then some ParserType.QuotedString
  else if k = "ip".data then some ParserType.IP
  else if k = "number".data then some ParserType.Number
  else if k = "toend".data then some ParserType.ToEnd
  else none

/-- The process-wide schema map `kECSParserMapper` (populated by
`configureParserMappings`), passed explicitly. -/
abbrev EcsMap := List Char → Option ParserType

def emptyEcs : EcsMap := fun _ => none

/-- Modelled from the spec: the per-type option configurator table
(`kParsersConfig`, defined in specificParsers.cpp which is not under src/).
Per spec 4.3 the configurator is dispatched with the remaining options slice
and mutates the parser's `options` field; we model every configurator as
storing that slice. -/
def kParsersConfig : ParserType → Option (Parser → List (List Char) → Parser) :=
  fun _ => some (fun p args => { p with options := args })

def setParserOptions (p : Parser) (args : List (List Char)) : Parser :=
  match kParsersConfig p.type with
  | some config => config p args
  | none => p

/-- The state of `createParserFromExpresion` just before the final
`setParserOptions` call: the parser under construction and the remaining
options that are about to be handed to the option configurator.
`name = args[0]`; reading `name[0]` of an empty `std::string` yields NUL,
modelled by `headD nulChar`. -/
def createParserArgs (ecs : EcsMap) (exp : Expression) : Parser × List (List Char) :=
  let args0 := splitSlashSeparatedField exp.text
  let name := args0.headD []
  let args := args0.tail
  let base : Parser :=
    { name := name, type := ParserType.Any, expType := exp.type,
      endToken := exp.endToken, options := [] }
  if name.headD nulChar = '_' then
    if name.length ≠ 1 then
      match args with
      | [] => (base, args)
      | a0 :: rest =>
        -- the first option is erased whether or not it matched the temp map
        match kTempTypeMapper a0 with
        | some t => ({ base with type := t }, rest)
        | none => (base, rest)
    else (base, args)
  else
    match ecs name with
    | some t => ({ base with type := t }, args)
    | none => (base, args)

def createParserFromExpresion (ecs : EcsMap) (exp : Expression) : Parser :=
  let pa := createParserArgs ecs exp
  setParserOptions pa.1 pa.2

/-- One arm of the `switch` in `getParserList`. -/
def exprToParser (ecs : EcsMap) (e : Expression) : Parser :=
  match e.type with
  | ExpressionType.Literal =>
    { name := e.text, type := ParserType.Literal, expType := ExpressionType.Literal,
      endToken := e.endToken, options := [] }
  | _ => createParserFromExpresion ecs e

def getParserList (ecs : EcsMap) : List Expression → List Parser
  | [] => []
  | e :: rest => exprToParser ecs e :: getParserList ecs rest

/-! ### Pipeline executor (hlp.cpp, `executeParserList`, `getParserOp`) -/

abbrev ParseResult := List (List Char × List Char)

/-- A specific parser `(cursor, parser, result) -> bool`: given the event, the
cursor, the parser and the result map, returns success, the new cursor and the
new result map. -/
abbrev SpecificP := List Char → Nat → Parser → ParseResult → Bool × Nat × ParseResult

structure ExecResult where
  ok : Bool
  trace : List Char
deriving DecidableEq

def msgSuccess (name : List Char) : List Char :=
  "Parser[\"".data ++ name ++ "\"] success\n".data

def msgFailure (name : List Char) : List Char :=
  "Parser[\"".data ++ name ++ "\"] failure".data

def msgMissingImpl (name : List Char) : List Char :=
  "Parser[\"".data ++ name ++ "\"] failure: Missing implementation for parser [".data
    ++ name ++ "]".data

/-- The loop of `executeParserList`, parameterised by the specific-parser table
`kAvailableParsers` (`avail`).  On failure of an `OptionalCapture`/`OrCapture`
parser the cursor is restored to its pre-step value (`eventIt = prevIt`) and
execution continues; any mutation the failing parser made to the result map is
kept, as in the source (the result is passed by reference and never rolled
back). -/
def execLoop (avail : ParserType → Option SpecificP) (event : List Char) :
    List Parser → Nat → ParseResult → List Char → ExecResult × ParseResult
  | [], _, res, trace => ({ ok := true, trace := trace }, res)
  | p :: rest, pos, res, trace =>
    match avail p.type with
    | none => ({ ok := false, trace := trace ++ msgMissingImpl p.name }, res)
    | some f =>
      let r := f event pos p res
      if r.1 then execLoop avail event rest r.2.1 r.2.2 (trace ++ msgSuccess p.name)
      else
        if p.expType = ExpressionType.OptionalCapture ∨ p.expType = ExpressionType.OrCapture then
          execLoop avail event rest pos r.2.2 trace
        else ({ ok := false, trace := trace ++ msgFailure p.name }, r.2.2)

def executeParserList (avail : ParserType → Option SpecificP) (event : List Char)
    (parsers : List Parser) : ExecResult × ParseResult :=
  execLoop avail event parsers 0 [] []

/-- `getParserOp`: the compilation pipeline.  The returned `ParserFn` closure
only captures the parser list, so it is modelled by that list; executing the
closure is `executeParserList`. -/
def getParserOp (ecs : EcsMap) (logQl : List Char) : Except HlpErr (List Parser) :=
  if logQl.isEmpty then
    Except.error (HlpErr.invalidArgument "[HLP]Empty LogQL expression".data)
  else
    match parseLogQlExpr logQl with
    | Except.error e => Except.error e
    | Except.ok expressions =>
      if expressions.isEmpty then
        Except.error (HlpErr.runtime "[HLP]Empty expression output obtained from LogQL parsing".data)
      else
        let parsers := getParserList ecs expressions
        if parsers.isEmpty then
          Except.error (HlpErr.runtime "[HLP]Could not convert expressions to parser List".data)
        else Except.ok parsers

/-- Modelled from the spec: the `Any` specific parser (specificParsers.cpp is
not under src/).  Per spec 4.4 it consumes characters up to (but not
including) the next occurrence of `endToken`, or to end-of-input when
`endToken` is NUL, stores the consumed slice under the parser's name, and
succeeds. -/
def parseAny : SpecificP := fun event pos p res =>
  let stop :=
    if p.endToken = nulChar then event.length
    else
      match (List.drop pos event).findIdx? (fun c => c = p.endToken) with
      | some k => pos + k
      | none => event.length
  (true, stop, res ++ [(p.name, List.take (stop - pos) (List.drop pos event))])

/-- A specific-parser table providing only the `Any` implementation. -/
def availAny : ParserType → Option SpecificP :=
  fun t =>
    match t with
    | ParserType.Any => some parseAny
    | _ => none

/-- Compile a pattern and run the resulting parser list on an event. -/
def compileAndRun (avail : ParserType → Option SpecificP) (ecs : EcsMap)
    (pattern event : List Char) : Except HlpErr (ExecResult × ParseResult) :=
  match getParserOp ecs pattern with
  | Except.error e => Except.error e
  | Except.ok ps => Except.ok (executeParserList avail event ps)

/-! ### Decoder asset builder (assetBuilderDecoder.cpp) -/

inductive JsonVal where
  | str (s : String)
  | obj (mems : List (String × JsonVal))
  | arr (elems : List JsonVal)
  | other

inductive BuildErr where
  | invalidArgument (msg : String)
  | runtime (msg : String)

/-- Modelled from the spec: `base::Lifter` operators (the reactive-operator
type lives outside src/); operators are represented symbolically so that the
composition order is observable. `filterNotDecoded` is the implicit head
filter built from the lambda at the top of `assetBuilderDecoder`. -/
inductive Op where
  | filterNotDecoded
  | stage (name : String) (stageDef : JsonVal)
  | chained (ops : List Op)

/-- Modelled from the spec: a registry entry is either an operation builder
`(definition, traceSink) -> Operator` or a combinator builder
`(sequence of Operators) -> Operator` (the trace sink does not influence the
composition and is not modelled). -/
inductive BuilderVariant where
  | opB (build : JsonVal → Op)
  | combB (build : List Op → Op)

structure Connectable where
  name : String
  parents : List String
  op : Op
  tracerName : String

/-- Member lookup on a JSON object's ordered member list (rapidjson
`HasMember` / `operator[]`: first member with the given key). -/
def getMember : List (String × JsonVal) → String → Option JsonVal
  | [], _ => none
  | (k, v) :: rest, key => if k = key then some v else getMember rest key

def getStrings : List JsonVal → Option (List String)
  | [] => some []
  | JsonVal.str s :: rest => (getStrings rest).map (fun l => s :: l)
  | _ :: _ => none

/-- The "rest of stages" loop: iterates the definition members in their
original order, skipping names already processed, resolving each remaining one
in the registry as an operation builder and appending the built operator. -/
def buildStages (reg : String → Option BuilderVariant) :
    List (String × JsonVal) → List String → List Op → Except BuildErr (List Op)
  | [], _, stages => Except.ok stages
  | (k, v) :: rest, proc, stages =>
    if k ∈ proc then buildStages reg rest proc stages
    else
      match reg k with
      | some (BuilderVariant.opB f) => buildStages reg rest (proc ++ [k]) (stages ++ [f v])
      | _ =>
        Except.error (BuildErr.runtime ("Decoder builder encountered exception building stage " ++ k))

def assetBuilderDecoder (reg : String → Option BuilderVariant) (d : JsonVal) :
    Except BuildErr Connectable :=
  match d with
  | JsonVal.obj mems =>
    -- name (mandatory)
    match getMember mems "name" with
    | none => Except.error (BuildErr.runtime "Decoder builder expects definition to have a name attribute.")
    | some nv =>
      match nv with
      | JsonVal.str name =>
        -- parents (optional)
        let parentsStep : Except BuildErr (List String × Bool) :=
          match getMember mems "parents" with
          | none => Except.ok ([], false)
          | some (JsonVal.arr elems) =>
            match getStrings elems with
            | some ps => Except.ok (ps, true)
            | none => Except.error (BuildErr.invalidArgument "Decoder builder encountered exception building attribute parents.")
          | some _ => Except.error (BuildErr.invalidArgument "Decoder builder encountered exception building attribute parents.")
        match parentsStep with
        | Except.error e => Except.error e
        | Except.ok (parents, hasParents) =>
          -- metadata (optional; the extracted map is local and unused in the result)
          let metaStep : Except BuildErr Bool :=
            match getMember mems "metadata" with
            | none => Except.ok false
            | some (JsonVal.obj _) => Except.ok true
            | some _ => Except.error (BuildErr.runtime "Decoder builder encountered exception building attribute metadata.")
          match metaStep with
          | Except.error e => Except.error e
          | Except.ok hasMeta =>
            let proc0 := ["name"] ++ (if hasParents then ["parents"] else [])
              ++ (if hasMeta then ["metadata"] else [])
            -- check (mandatory stage)
            match getMember mems "check" with
            | none => Except.error (BuildErr.invalidArgument "Decoder builder expects value to have a check stage.")
            | some cv =>
              match reg "check" with
              | some (BuilderVariant.opB f) =>
                match buildStages reg mems (proc0 ++ ["check"]) [Op.filterNotDecoded, f cv] with
                | Except.error e => Except.error e
                | Except.ok stages =>
                  match reg "combinator.chain" with
                  | some (BuilderVariant.combB g) =>
                    Except.ok { name := name, parents := parents, op := g stages, tracerName := name }
                  | _ => Except.error (BuildErr.runtime "Decoder builder encountered exception building chaining all stages.")
              | _ => Except.error (BuildErr.runtime "Decoder builder encountered exception building stage check.")
      | _ => Except.error (BuildErr.runtime "Decoder builder encountered exception building attribute name.")
  | _ => Except.error (BuildErr.invalidArgument "Decoder builder expects value to be an object")

/-- Modelled from the spec: a registry in which every stage name resolves to an
operation builder tagging the stage symbolically, and `combinator.chain`
resolves to the chain combinator. -/
def stageReg : String → Option BuilderVariant :=
  fun k =>
    if k = "combinator.chain" then some (BuilderVariant.combB Op.chained)
    else some (BuilderVariant.opB (Op.stage k))

/-! ### Basic buffer lemmas -/

theorem chAt_ge (s : List Char) (pos : Nat) (h : s.length ≤ pos) : chAt s pos = nulChar := by
  rw [chAt]
  exact List.getD_eq_default _ _ h

theorem chAt_mem (s : List Char) (pos : Nat) (h : pos < s.length) : chAt s pos ∈ s := by
  rw [chAt, List.getD_eq_getElem _ _ h]
  exact List.getElem_mem h

theorem chAt_drop (s : List Char) (pos : Nat) :
    chAt s pos = (List.drop pos s).headD nulChar := by
  induction s generalizing pos with
  | nil => simp [chAt]
  | cons c r ih =>
    cases pos with
    | zero => simp [chAt]
    | succ p =>
      rw [List.drop_succ_cons]
      rw [show chAt (c :: r) (p + 1) = chAt r p from rfl]
      exact ih p

theorem drop_succ_tail (s : List Char) (pos : Nat) :
    List.drop (pos + 1) s = List.tail (List.drop pos s) := by
  induction s generalizing pos with
  | nil => simp
  | cons c r ih =>
    cases pos with
    | zero => simp
    | succ p =>
      rw [List.drop_succ_cons, List.drop_succ_cons]
      exact ih p

theorem runLen_le (l : List Char) (e : Bool) : runLen l e ≤ l.length := by
  induction l generalizing e with
  | nil => simp [runLen]
  | cons c rest ih =>
    rw [runLen]
    split
    · have := ih (decide (rest.headD nulChar = '\\'))
      simp only [List.length_cons]
      omega
    · simp

theorem getToken_advance (s : List Char) (pos : Nat) : pos < (getToken s pos).2 := by
  rw [getToken]
  split
  · omega
  · split
    · omega
    · split
      · omega
      · split
        · omega
        · simp only []
          omega

theorem getToken_le (s : List Char) (pos : Nat) (h : pos < s.length) :
    (getToken s pos).2 ≤ s.length := by
  rw [getToken]
  split
  · omega
  · split
    · omega
    · split
      · omega
      · split
        · omega
        · have h1 := runLen_le (List.drop (pos + 1) s) false
          simp only [List.length_drop] at h1
          simp only []
          omega

theorem getToken_eoe_of (s : List Char) (pos : Nat) (h : chAt s pos = nulChar) :
    getToken s pos = ({ text := [], type := TokenType.EndOfExpr }, pos + 1) := by
  rw [getToken, h]
  rw [if_neg (by decide), if_neg (by decide), if_neg (by decide), if_pos rfl]

theorem getToken_not_eoe (s : List Char) (pos : Nat) (h : chAt s pos ≠ nulChar) :
    (getToken s pos).1.type ≠ TokenType.EndOfExpr := by
  intro he
  rw [getToken] at he
  split_ifs at he

/-! ### Tokenizer totality (claim C3) -/

theorem runTokenizer_total (s : List Char) (hnul : nulChar ∉ s) :
    ∀ fuel pos, pos ≤ s.length → s.length + 1 - pos ≤ fuel →
      ∃ ts, runTokenizer s fuel pos = some (ts, s.length + 1) ∧
        ts.getLast? = some { text := [], type := TokenType.EndOfExpr } := by
  intro fuel
  induction fuel with
  | zero => intro pos hp hf; omega
  | succ f ih =>
    intro pos hp hf
    rcases Nat.eq_or_lt_of_le hp with heq | hlt
    · subst heq
      have hc : chAt s s.length = nulChar := chAt_ge s s.length (le_refl _)
      have hg := getToken_eoe_of s s.length hc
      refine ⟨[{ text := [], type := TokenType.EndOfExpr }], ?_, rfl⟩
      rw [runTokenizer]
      simp [hg]
    · have hc : chAt s pos ≠ nulChar := by
        intro hcc
        exact hnul (hcc ▸ chAt_mem s pos hlt)
      have hne := getToken_not_eoe s pos hc
      have hadv := getToken_advance s pos
      have hle := getToken_le s pos hlt
      obtain ⟨ts, hts, hlast⟩ := ih (getToken s pos).2 hle (by omega)
      refine ⟨(getToken s pos).1 :: ts, ?_, ?_⟩
      · rw [runTokenizer]
        simp [hne, hts]
      · cases ts with
        | nil => simp at hlast
        | cons t' ts' => simpa using hlast

/-- C3, counterexample.  The claim says that at end-of-string `getToken`
returns `EndOfExpr` "without reading or advancing past the end of the input".
But `getToken` advances the cursor unconditionally (`tk.stream++`): on the
empty pattern the call at the terminator (position 0) returns `EndOfExpr` with
the cursor moved to 1 — one past the terminator — and the next call reads
position 1 (beyond the input; NUL in the padded model) and moves the cursor to
2. -/
theorem getToken_advances_past_end_cex :
    getToken "".data 0 = ({ text := [], type := TokenType.EndOfExpr }, 1) ∧
    getToken "".data 1 = ({ text := [], type := TokenType.EndOfExpr }, 2) := by
  exact ⟨rfl, rfl⟩

/-- C3, amended: for every finite NUL-terminated pattern (a list of non-NUL
characters), repeatedly calling `getToken` terminates with `EndOfExpr` after
consuming the entire input (final cursor `length + 1`, the token list ending in
the `EndOfExpr` token); however, every call at or past the end of the string
returns `EndOfExpr` while still advancing the cursor by one, so subsequent
calls read and move past the end of the input. -/
theorem tokenizer_totality_amended (s : List Char) (hnul : nulChar ∉ s) :
    (∃ ts, runTokenizer s (s.length + 1) 0 = some (ts, s.length + 1) ∧
       ts.getLast? = some { text := [], type := TokenType.EndOfExpr }) ∧
    (∀ pos, s.length ≤ pos →
       getToken s pos = ({ text := [], type := TokenType.EndOfExpr }, pos + 1)) := by
  constructor
  · exact runTokenizer_total s hnul (s.length + 1) 0 (Nat.zero_le _) (by omega)
  · intro pos hp
    exact getToken_eoe_of s pos (chAt_ge s pos hp)

theorem tokenizer_totality_amended_witness :
    nulChar ∉ "ab".data ∧
    ((∃ ts, runTokenizer "ab".data ("ab".data.length + 1) 0 = some (ts, "ab".data.length + 1) ∧
        ts.getLast? = some { text := [], type := TokenType.EndOfExpr }) ∧
     (∀ pos, "ab".data.length ≤ pos →
        getToken "ab".data pos = ({ text := [], type := TokenType.EndOfExpr }, pos + 1))) :=
  ⟨by decide, tokenizer_totality_amended "ab".data (by decide)⟩

/-- C2 (code bug): the escape mechanism is inert.  The source sets the
`escaped` flag only AFTER advancing, from the character it just advanced to,
so a backslash never protects the character that follows it.  On the pattern
`a\<b>` the literal run stops at the `<` (yielding the literal `a\`), the `<`
is then tokenized as `OpenAngle`, and the whole pattern parses as the literal
`a\` followed by a CAPTURE of `b` — the claim (and spec) say `\<` must stay
inside the literal run. -/
theorem escaped_angle_terminates_literal :
    getToken "a\\<b>".data 0 = ({ text := "a\\".data, type := TokenType.Literal }, 2) ∧
    (getToken "a\\<b>".data 2).1.type = TokenType.OpenAngle ∧
    parseLogQlExpr "a\\<b>".data =
      Except.ok [{ text := "a\\".data, type := ExpressionType.Literal, endToken := nulChar },
                 { text := "b".data, type := ExpressionType.Capture, endToken := nulChar }] := by
  exact ⟨by decide, by decide, rfl⟩

/-- C1 (code bug): after the first alternative of `<a>?<b>` succeeds on the
whole input, the executor does not skip the second alternative: the loop in
`executeParserList` simply continues with the next parser, so the `Capture`
for `b` still runs (at the post-`a` cursor) and writes its (here empty)
capture into the result.  The claim says that when `a` succeeds, `b` is not
applied and the result contains only `a`'s capture. -/
theorem orCapture_success_still_runs_second :
    compileAndRun availAny emptyEcs "<a>?<b>".data "hello".data =
      Except.ok ({ ok := true, trace := ([] ++ msgSuccess "a".data) ++ msgSuccess "b".data },
                 [("a".data, "hello".data), ("b".data, [])]) := by
  rfl

/-- C5, counterexample: compiling the back-to-back pattern `<a><b>` fails with
a RUNTIME error (`std::runtime_error` in `parseLogQlExpr`), not with the
InvalidArgument error the claim states; the diagnostic embeds the pattern
suffix starting at the first capture (here the whole pattern) rather than a
numeric position. -/
theorem backToBack_runtime_cex :
    getParserOp emptyEcs "<a><b>".data =
      Except.error (HlpErr.runtime
        "[HLP]Invalid LogQL expression at [<a><b>]. Can't captures back to back".data) := by
  rfl

/-- C6, counterexample: a definition with a `name` but no `check` stage is
rejected with an INVALID-ARGUMENT error (`std::invalid_argument` at the
missing-check branch of `assetBuilderDecoder`), not the Runtime error the
claim states. -/
theorem missing_check_invalidArgument_cex :
    assetBuilderDecoder stageReg (JsonVal.obj [("name", JsonVal.str "d1")]) =
      Except.error (BuildErr.invalidArgument "Decoder builder expects value to have a check stage.") := by
  rfl

/-! ### Alternation adjacency machinery (claims C7, C8) -/

def dfltE : Expression := { text := [], type := ExpressionType.Capture, endToken := nulChar }

def dfltP : Parser :=
  { name := [], type := ParserType.Any, expType := ExpressionType.Capture,
    endToken := nulChar, options := [] }

/-- Structural adjacency invariant on expression lists: every `OrCapture` is
immediately followed by a `Capture` with the same `endToken` (in particular an
`OrCapture` is never last). -/
def goodE : List Expression → Bool
  | [] => true
  | [e] => decide (e.type ≠ ExpressionType.OrCapture)
  | e :: e2 :: rest =>
    (if e.type = ExpressionType.OrCapture then
       decide (e2.type = ExpressionType.Capture) && decide (e2.endToken = e.endToken)
     else true) && goodE (e2 :: rest)

theorem goodE_append : ∀ a b, goodE a = true → goodE b = true → goodE (a ++ b) = true
  | [], _, _, hb => hb
  | [e], b, ha, hb => by
    cases b with
    | nil => exact ha
    | cons b0 tb =>
      have he : e.type ≠ ExpressionType.OrCapture := by simpa [goodE] using ha
      show goodE (e :: b0 :: tb) = true
      rw [goodE, if_neg he, Bool.true_and]
      exact hb
  | e :: e2 :: rest, b, ha, hb => by
    rw [goodE, Bool.and_eq_true] at ha
    obtain ⟨h1, h2⟩ := ha
    show goodE (e :: e2 :: (rest ++ b)) = true
    rw [goodE, Bool.and_eq_true]
    exact ⟨h1, goodE_append (e2 :: rest) b h2 hb⟩

theorem parseCapture_goodE (s : List Char) (pos : Nat) (es : List Expression) (q : Nat)
    (h : parseCapture s pos = some (es, q)) : goodE es = true := by
  simp only [parseCapture] at h
  repeat' split at h
  all_goals
    first
      | exact Option.noConfusion h
      | (injection h with h'
         injection h' with h1 h2
         subst h1
         simp [goodE])

theorem parseLoop_goodE (s : List Char) :
    ∀ fuel pos acc es, goodE acc = true → parseLoop s fuel pos acc = Except.ok es →
      goodE es = true := by
  intro fuel
  induction fuel with
  | zero =>
    intro pos acc es hg hp
    rw [parseLoop] at hp
    exact Except.noConfusion hp
  | succ f ih =>
    intro pos acc es hg hp
    simp only [parseLoop] at hp
    split at hp
    · cases hcap : parseCapture s (getToken s pos).2 with
      | none =>
        simp only [hcap] at hp
        exact Except.noConfusion hp
      | some pr =>
        obtain ⟨es', pos2⟩ := pr
        simp only [hcap] at hp
        split at hp
        · exact Except.noConfusion hp
        · exact ih pos2 (acc ++ es') es
            (goodE_append acc es' hg (parseCapture_goodE s _ es' pos2 hcap)) hp
    · split at hp
      · exact ih _ _ es (goodE_append acc _ hg (by simp [goodE])) hp
      · split at hp
        · injection hp with h1
          subst h1
          exact hg
        · exact Except.noConfusion hp

theorem goodE_getD : ∀ (l : List Expression), goodE l = true →
    ∀ i, i < l.length → (l.getD i dfltE).type = ExpressionType.OrCapture →
      i + 1 < l.length ∧ (l.getD (i + 1) dfltE).type = ExpressionType.Capture ∧
      (l.getD (i + 1) dfltE).endToken = (l.getD i dfltE).endToken
  | [], _, i, hi, _ => absurd hi (by simp)
  | [e], h, 0, _, hor => by
    simp only [goodE, decide_eq_true_eq] at h
    exact absurd hor h
  | [e], _, i + 1, hi, _ => by
    simp only [List.length_singleton] at hi
    omega
  | e :: e2 :: rest, h, 0, _, hor => by
    rw [goodE, Bool.and_eq_true] at h
    obtain ⟨h1, _⟩ := h
    have hor0 : e.type = ExpressionType.OrCapture := hor
    rw [if_pos hor0, Bool.and_eq_true, decide_eq_true_eq, decide_eq_true_eq] at h1
    refine ⟨by simp, h1.1, h1.2⟩
  | e :: e2 :: rest, h, i + 1, hi, hor => by
    rw [goodE, Bool.and_eq_true] at h
    obtain ⟨_, h2⟩ := h
    have hi' : i < (e2 :: rest).length := by
      simp only [List.length_cons] at hi ⊢
      omega
    have := goodE_getD (e2 :: rest) h2 i hi' hor
    refine ⟨?_, this.2.1, this.2.2⟩
    simp only [List.length_cons] at this ⊢
    omega

theorem getParserList_length (ecs : EcsMap) :
    ∀ es : List Expression, (getParserList ecs es).length = es.length
  | [] => rfl
  | _ :: rest => by
    rw [getParserList, List.length_cons, List.length_cons, getParserList_length ecs rest]

theorem getParserList_getD (ecs : EcsMap) :
    ∀ (es : List Expression) (i : Nat), i < es.length →
      (getParserList ecs es).getD i dfltP = exprToParser ecs (es.getD i dfltE)
  | [], i, hi => absurd hi (by simp)
  | e :: rest, 0, _ => rfl
  | e :: rest, i + 1, hi => by
    rw [getParserList]
    have hi' : i < rest.length := by
      simp only [List.length_cons] at hi
      omega
    exact getParserList_getD ecs rest i hi'

theorem setParserOptions_fields (p : Parser) (args : List (List Char)) :
    (setParserOptions p args).expType = p.expType ∧
    (setParserOptions p args).endToken = p.endToken := by
  rw [setParserOptions]
  exact ⟨rfl, rfl⟩

theorem createParserArgs_fields (ecs : EcsMap) (e : Expression) :
    (createParserArgs ecs e).1.expType = e.type ∧
    (createParserArgs ecs e).1.endToken = e.endToken := by
  rw [createParserArgs]
  repeat' split
  all_goals exact ⟨rfl, rfl⟩

theorem exprToParser_fields (ecs : EcsMap) (e : Expression) :
    (exprToParser ecs e).expType = e.type ∧ (exprToParser ecs e).endToken = e.endToken := by
  rw [exprToParser]
  split
  · next heq => exact ⟨by rw [heq], rfl⟩
  · obtain ⟨h1, h2⟩ :=
      setParserOptions_fields (createParserArgs ecs e).1 (createParserArgs ecs e).2
    obtain ⟨h3, h4⟩ := createParserArgs_fields ecs e
    exact ⟨h1.trans h3, h2.trans h4⟩

/-- C7: for every expression list produced by a successful pattern compilation,
`getParserList` returns a parser list of the same length in which the parser at
each position is derived (by the `getParserList` switch) from the expression at
the same position, carrying over its expression tag and endToken. -/
theorem parserList_matches_expressionList (ecs : EcsMap) (s : List Char)
    (es : List Expression) (h : parseLogQlExpr s = Except.ok es) :
    (getParserList ecs es).length = es.length ∧
    ∀ i, i < es.length →
      (getParserList ecs es).getD i dfltP = exprToParser ecs (es.getD i dfltE) ∧
      ((getParserList ecs es).getD i dfltP).expType = (es.getD i dfltE).type ∧
      ((getParserList ecs es).getD i dfltP).endToken = (es.getD i dfltE).endToken := by
  refine ⟨getParserList_length ecs es, fun i hi => ?_⟩
  have hg := getParserList_getD ecs es i hi
  obtain ⟨h1, h2⟩ := exprToParser_fields ecs (es.getD i dfltE)
  exact ⟨hg, by rw [hg, h1], by rw [hg, h2]⟩

/-- The expression list of pattern `<a>x` (used by the witnesses). -/
def esAx : List Expression :=
  [{ text := "a".data, type := ExpressionType.Capture, endToken := 'x' },
   { text := "x".data, type := ExpressionType.Literal, endToken := nulChar }]

theorem parserList_matches_expressionList_witness :
    parseLogQlExpr "<a>x".data = Except.ok esAx ∧
    ((getParserList emptyEcs esAx).length = esAx.length ∧
     ∀ i, i < esAx.length →
       (getParserList emptyEcs esAx).getD i dfltP = exprToParser emptyEcs (esAx.getD i dfltE) ∧
       ((getParserList emptyEcs esAx).getD i dfltP).expType = (esAx.getD i dfltE).type ∧
       ((getParserList emptyEcs esAx).getD i dfltP).endToken = (esAx.getD i dfltE).endToken) :=
  ⟨rfl, parserList_matches_expressionList emptyEcs "<a>x".data esAx rfl⟩

/-- C8: in every parser list produced from a successfully compiled pattern,
each parser tagged `OrCapture` is immediately followed by one tagged `Capture`
carrying the same endToken. -/
theorem orCapture_adjacency (ecs : EcsMap) (s : List Char) (es : List Expression)
    (h : parseLogQlExpr s = Except.ok es) (i : Nat)
    (hi : i < (getParserList ecs es).length)
    (hor : ((getParserList ecs es).getD i dfltP).expType = ExpressionType.OrCapture) :
    i + 1 < (getParserList ecs es).length ∧
    ((getParserList ecs es).getD (i + 1) dfltP).expType = ExpressionType.Capture ∧
    ((getParserList ecs es).getD (i + 1) dfltP).endToken =
      ((getParserList ecs es).getD i dfltP).endToken := by
  have hlen := getParserList_length ecs es
  have hie : i < es.length := hlen ▸ hi
  have h' : parseLoop s (s.length + 1) 0 [] = Except.ok es := h
  have hgood : goodE es = true := parseLoop_goodE s (s.length + 1) 0 [] es rfl h'
  have hgi := getParserList_getD ecs es i hie
  have hfi := exprToParser_fields ecs (es.getD i dfltE)
  have hei : (es.getD i dfltE).type = ExpressionType.OrCapture := by
    rw [hgi, hfi.1] at hor
    exact hor
  obtain ⟨hlt, hcap, hend⟩ := goodE_getD es hgood i hie hei
  have hgi1 := getParserList_getD ecs es (i + 1) hlt
  have hfi1 := exprToParser_fields ecs (es.getD (i + 1) dfltE)
  refine ⟨by rw [hlen]; exact hlt, ?_, ?_⟩
  · rw [hgi1, hfi1.1]
    exact hcap
  · rw [hgi1, hfi1.2, hend, hgi, hfi.2]

/-- The expression list of pattern `<a>?<b>x` (used by the witness). -/
def esOrBx : List Expression :=
  [{ text := "a".data, type := ExpressionType.OrCapture, endToken := 'x' },
   { text := "b".data, type := ExpressionType.Capture, endToken := 'x' },
   { text := "x".data, type := ExpressionType.Literal, endToken := nulChar }]

theorem orCapture_adjacency_witness :
    parseLogQlExpr "<a>?<b>x".data = Except.ok esOrBx ∧
    0 < (getParserList emptyEcs esOrBx).length ∧
    ((getParserList emptyEcs esOrBx).getD 0 dfltP).expType = ExpressionType.OrCapture ∧
    (0 + 1 < (getParserList emptyEcs esOrBx).length ∧
     ((getParserList emptyEcs esOrBx).getD (0 + 1) dfltP).expType = ExpressionType.Capture ∧
     ((getParserList emptyEcs esOrBx).getD (0 + 1) dfltP).endToken =
       ((getParserList emptyEcs esOrBx).getD 0 dfltP).endToken) :=
  ⟨rfl, by decide, by decide,
   orCapture_adjacency emptyEcs "<a>?<b>x".data esOrBx rfl 0 (by decide) (by decide)⟩

/-- C9: if the specific parser of an `OptionalCapture`-tagged parser fails,
the executor restores the cursor (`eventIt = prevIt`) and continues with the
remaining parsers at the same position; the trace is unchanged and the result
map keeps whatever the failing parser wrote (it is never rolled back). -/
theorem optionalCapture_no_advance (avail : ParserType → Option SpecificP)
    (event : List Char) (p : Parser) (rest : List Parser) (pos : Nat)
    (res : ParseResult) (trace : List Char) (f : SpecificP)
    (hf : avail p.type = some f)
    (hopt : p.expType = ExpressionType.OptionalCapture)
    (hfail : (f event pos p res).1 = false) :
    execLoop avail event (p :: rest) pos res trace =
      execLoop avail event rest pos (f event pos p res).2.2 trace := by
  simp [execLoop, hf, hfail, hopt]

def alwaysFail : SpecificP := fun _ pos _ res => (false, pos + 1, res)

def availFail : ParserType → Option SpecificP := fun _ => some alwaysFail

def pOpt : Parser :=
  { name := "u".data, type := ParserType.Any, expType := ExpressionType.OptionalCapture,
    endToken := nulChar, options := [] }

theorem optionalCapture_no_advance_witness :
    availFail pOpt.type = some alwaysFail ∧
    pOpt.expType = ExpressionType.OptionalCapture ∧
    (alwaysFail "x".data 0 pOpt []).1 = false ∧
    execLoop availFail "x".data [pOpt] 0 [] [] =
      execLoop availFail "x".data [] 0 (alwaysFail "x".data 0 pOpt []).2.2 [] :=
  ⟨rfl, rfl, rfl,
   optionalCapture_no_advance availFail "x".data pOpt [] 0 [] [] alwaysFail rfl rfl rfl⟩

/-- C10: for a temporary capture (name starting with underscore, length > 1)
with at least one option present, the first option is erased from the options
handed to the option configurator even when it does not match the temporary
type map, and in that non-matching case the parser type stays `Any`. -/
theorem temp_capture_unmatched_option_consumed (ecs : EcsMap) (exp : Expression)
    (nm o1 : List Char) (rest : List (List Char))
    (hsplit : splitSlashSeparatedField exp.text = nm :: o1 :: rest)
    (hus : nm.headD nulChar = '_')
    (hlen : 1 < nm.length)
    (hmiss : kTempTypeMapper o1 = none) :
    createParserArgs ecs exp =
      ({ name := nm, type := ParserType.Any, expType := exp.type,
         endToken := exp.endToken, options := [] }, rest) ∧
    createParserFromExpresion ecs exp =
      { name := nm, type := ParserType.Any, expType := exp.type,
        endToken := exp.endToken, options := rest } := by
  have hargs : createParserArgs ecs exp =
      ({ name := nm, type := ParserType.Any, expType := exp.type,
         endToken := exp.endToken, options := [] }, rest) := by
    rw [createParserArgs, hsplit]
    simp only [List.headD_cons, List.tail_cons, hmiss]
    rw [if_pos hus, if_pos (by omega)]
  refine ⟨hargs, ?_⟩
  show setParserOptions (createParserArgs ecs exp).1 (createParserArgs ecs exp).2 = _
  rw [hargs, setParserOptions]
  rfl

def expTmp : Expression :=
  { text := "_tmp/opt1/opt2".data, type := ExpressionType.Capture, endToken := 'x' }

theorem temp_capture_unmatched_option_consumed_witness :
    splitSlashSeparatedField expTmp.text = ["_tmp".data, "opt1".data, "opt2".data] ∧
    "_tmp".data.headD nulChar = '_' ∧
    1 < "_tmp".data.length ∧
    kTempTypeMapper "opt1".data = none ∧
    (createParserArgs emptyEcs expTmp =
       ({ name := "_tmp".data, type := ParserType.Any, expType := expTmp.type,
          endToken := expTmp.endToken, options := [] }, ["opt2".data]) ∧
     createParserFromExpresion emptyEcs expTmp =
       { name := "_tmp".data, type := ParserType.Any, expType := expTmp.type,
         endToken := expTmp.endToken, options := ["opt2".data] }) :=
  ⟨by decide, by decide, by decide, by decide,
   temp_capture_unmatched_option_consumed emptyEcs expTmp "_tmp".data "opt1".data ["opt2".data]
     (by decide) (by decide) (by decide) (by decide)⟩

/-! ### Decoder builder lemmas (claims C4, C6) -/

theorem getMember_none : ∀ (mems : List (String × JsonVal)) (key : String),
    key ∉ mems.map Prod.fst → getMember mems key = none
  | [], _, _ => rfl
  | (k, v) :: rest, key, h => by
    rw [getMember, if_neg, getMember_none rest key]
    · intro hmem
      exact h (by simp [hmem])
    · intro hk
      exact h (by simp [hk])

theorem buildStages_all_new :
    ∀ (ks : List (String × JsonVal)) (proc : List String) (stages : List Op),
      (∀ k ∈ ks.map Prod.fst, k ∉ proc) →
      (ks.map Prod.fst).Nodup →
      (∀ k ∈ ks.map Prod.fst, k ≠ "combinator.chain") →
      buildStages stageReg ks proc stages =
        Except.ok (stages ++ ks.map (fun kv => Op.stage kv.1 kv.2))
  | [], proc, stages, _, _, _ => by simp [buildStages]
  | (k, v) :: rest, proc, stages, hnew, hnodup, hcomb => by
    rw [buildStages, if_neg (hnew k (by simp))]
    have hk : ¬k = "combinator.chain" := hcomb k (by simp)
    rw [stageReg, if_neg hk]
    have hrestnew : ∀ k' ∈ rest.map Prod.fst, k' ∉ proc ++ [k] := by
      intro k' hk'
      simp only [List.mem_append, List.mem_singleton]
      rintro (hin | hin)
      · exact hnew k' (by simp [hk']) hin
      · subst hin
        rw [List.map_cons, List.nodup_cons] at hnodup
        exact hnodup.1 hk'
    have hrestnodup : (rest.map Prod.fst).Nodup := by
      rw [List.map_cons, List.nodup_cons] at hnodup
      exact hnodup.2
    have hrestcomb : ∀ k' ∈ rest.map Prod.fst, k' ≠ "combinator.chain" := by
      intro k' hk'
      exact hcomb k' (by simp [hk'])
    show buildStages stageReg rest (proc ++ [k]) (stages ++ [Op.stage k v]) =
      Except.ok (stages ++ List.map (fun kv => Op.stage kv.1 kv.2) ((k, v) :: rest))
    rw [buildStages_all_new rest (proc ++ [k]) (stages ++ [Op.stage k v])
        hrestnew hrestnodup hrestcomb]
    simp

/-- C4: for a decoder definition with `name`, `check`, and any further stage
keys in source order, the composed operator chains the stages in exactly the
order: implicit not-yet-decoded filter, `check`, then the remaining stage keys
in definition order. -/
theorem decoder_stage_order (n : String) (vc : JsonVal) (ks : List (String × JsonVal))
    (hnodup : (ks.map Prod.fst).Nodup)
    (hres : ∀ k ∈ ks.map Prod.fst,
       k ∉ ["name", "parents", "metadata", "check", "combinator.chain"]) :
    assetBuilderDecoder stageReg
        (JsonVal.obj (("name", JsonVal.str n) :: ("check", vc) :: ks)) =
      Except.ok { name := n, parents := [],
                  op := Op.chained ([Op.filterNotDecoded, Op.stage "check" vc]
                          ++ ks.map (fun kv => Op.stage kv.1 kv.2)),
                  tracerName := n } := by
  have hname : getMember (("name", JsonVal.str n) :: ("check", vc) :: ks) "name" =
      some (JsonVal.str n) := by
    rw [getMember, if_pos rfl]
  have hpar : getMember (("name", JsonVal.str n) :: ("check", vc) :: ks) "parents" = none := by
    apply getMember_none
    simp only [List.map_cons, List.mem_cons]
    rintro (h | h | h)
    · exact absurd h (by decide)
    · exact absurd h (by decide)
    · exact (hres _ h) (by decide)
  have hmeta : getMember (("name", JsonVal.str n) :: ("check", vc) :: ks) "metadata" = none := by
    apply getMember_none
    simp only [List.map_cons, List.mem_cons]
    rintro (h | h | h)
    · exact absurd h (by decide)
    · exact absurd h (by decide)
    · exact (hres _ h) (by decide)
  have hcheck : getMember (("name", JsonVal.str n) :: ("check", vc) :: ks) "check" =
      some vc := by
    rw [getMember, if_neg (by decide), getMember, if_pos rfl]
  have hregcheck : stageReg "check" = some (BuilderVariant.opB (Op.stage "check")) := by
    rw [stageReg, if_neg (by decide)]
  have hregchain : stageReg "combinator.chain" = some (BuilderVariant.combB Op.chained) := by
    rw [stageReg, if_pos rfl]
  have hksnew : ∀ k ∈ ks.map Prod.fst, k ∉ ["name", "check"] := by
    intro k hk
    have := hres k hk
    simp only [List.mem_cons, List.not_mem_nil] at this ⊢
    tauto
  have hkscomb : ∀ k ∈ ks.map Prod.fst, k ≠ "combinator.chain" := by
    intro k hk
    have := hres k hk
    simp only [List.mem_cons, List.not_mem_nil] at this
    tauto
  have hb : buildStages stageReg (("name", JsonVal.str n) :: ("check", vc) :: ks)
      ["name", "check"] [Op.filterNotDecoded, Op.stage "check" vc] =
      Except.ok ([Op.filterNotDecoded, Op.stage "check" vc]
        ++ ks.map (fun kv => Op.stage kv.1 kv.2)) := by
    rw [buildStages, if_pos (by decide)]
    rw [buildStages, if_pos (by decide)]
    exact buildStages_all_new ks ["name", "check"] _ hksnew hnodup hkscomb
  simp [assetBuilderDecoder, hname, hpar, hmeta, hcheck, hregcheck, hregchain, hb]

theorem decoder_stage_order_witness :
    ((["parse", "normalize"] : List String).Nodup ∧
     (∀ k ∈ ([("parse", JsonVal.other), ("normalize", JsonVal.other)].map Prod.fst),
        k ∉ ["name", "parents", "metadata", "check", "combinator.chain"])) ∧
    assetBuilderDecoder stageReg
        (JsonVal.obj [("name", JsonVal.str "d1"), ("check", JsonVal.obj []),
                      ("parse", JsonVal.other), ("normalize", JsonVal.other)]) =
      Except.ok { name := "d1", parents := [],
                  op := Op.chained [Op.filterNotDecoded, Op.stage "check" (JsonVal.obj []),
                                    Op.stage "parse" JsonVal.other,
                                    Op.stage "normalize" JsonVal.other],
                  tracerName := "d1" } :=
  ⟨⟨by decide, by decide⟩,
   decoder_stage_order "d1" (JsonVal.obj [])
     [("parse", JsonVal.other), ("normalize", JsonVal.other)] (by decide) (by decide)⟩

/-- C6, amended: building a decoder from a definition that lacks the mandatory
`name` attribute fails with a Runtime error; a definition that lacks the
mandatory `check` stage (with the earlier attributes well-formed) fails with an
InvalidArgument error.  In both cases no Connectable is returned. -/
theorem missing_name_or_check_errors :
    (∀ (reg : String → Option BuilderVariant) (mems : List (String × JsonVal)),
       "name" ∉ mems.map Prod.fst →
       assetBuilderDecoder reg (JsonVal.obj mems) =
         Except.error (BuildErr.runtime "Decoder builder expects definition to have a name attribute.")) ∧
    (∀ (reg : String → Option BuilderVariant) (mems : List (String × JsonVal)) (n : String),
       getMember mems "name" = some (JsonVal.str n) →
       "parents" ∉ mems.map Prod.fst →
       "metadata" ∉ mems.map Prod.fst →
       "check" ∉ mems.map Prod.fst →
       assetBuilderDecoder reg (JsonVal.obj mems) =
         Except.error (BuildErr.invalidArgument "Decoder builder expects value to have a check stage.")) := by
  constructor
  · intro reg mems hn
    have h1 := getMember_none mems "name" hn
    simp [assetBuilderDecoder, h1]
  · intro reg mems n hn hp hm hc
    have h2 := getMember_none mems "parents" hp
    have h3 := getMember_none mems "metadata" hm
    have h4 := getMember_none mems "check" hc
    simp [assetBuilderDecoder, hn, h2, h3, h4]

theorem missing_name_or_check_errors_witness :
    ("name" ∉ ([("check", JsonVal.obj [])].map Prod.fst) ∧
     assetBuilderDecoder stageReg (JsonVal.obj [("check", JsonVal.obj [])]) =
       Except.error (BuildErr.runtime "Decoder builder expects definition to have a name attribute.")) ∧
    (getMember [("name", JsonVal.str "d1")] "name" = some (JsonVal.str "d1") ∧
     assetBuilderDecoder stageReg (JsonVal.obj [("name", JsonVal.str "d1")]) =
       Except.error (BuildErr.invalidArgument "Decoder builder expects value to have a check stage.")) :=
  ⟨⟨by decide, missing_name_or_check_errors.1 stageReg _ (by decide)⟩,
   ⟨rfl, missing_name_or_check_errors.2 stageReg _ "d1" rfl (by decide) (by decide) (by decide)⟩⟩

/-! ### Back-to-back captures (claim C5) -/

theorem getToken_open (s : List Char) (pos : Nat) (h : chAt s pos = '<') :
    getToken s pos = ({ text := ['<'], type := TokenType.OpenAngle }, pos + 1) := by
  rw [getToken, if_pos h]

theorem getToken_close (s : List Char) (pos : Nat) (h : chAt s pos = '>') :
    getToken s pos = ({ text := ['>'], type := TokenType.CloseAngle }, pos + 1) := by
  rw [getToken, if_neg (by rw [h]; decide), if_pos h]

theorem runLen_plain : ∀ (xs tail : List Char) (e : Bool),
    (∀ c ∈ xs, c ≠ nulChar ∧ c ≠ '<' ∧ c ≠ '>') →
    (e = true → (xs ++ tail).headD nulChar = '\\') →
    (tail.headD nulChar = nulChar ∨ tail.headD nulChar = '<' ∨ tail.headD nulChar = '>') →
    runLen (xs ++ tail) e = xs.length
  | [], tail, e, _, hesc, hstop => by
    cases tail with
    | nil => rfl
    | cons c r =>
      simp only [List.headD_cons] at hstop
      have hneg : ¬(c ≠ nulChar ∧ (e = true ∨ (c ≠ '<' ∧ c ≠ '>'))) := by
        rintro ⟨hcnul, hcont⟩
        rcases hstop with h | h | h
        · exact hcnul h
        · rcases hcont with he | hne
          · have := hesc he
            rw [List.nil_append, List.headD_cons, h] at this
            exact absurd this (by decide)
          · exact hne.1 h
        · rcases hcont with he | hne
          · have := hesc he
            rw [List.nil_append, List.headD_cons, h] at this
            exact absurd this (by decide)
          · exact hne.2 h
      rw [List.nil_append, runLen, if_neg hneg]
      rfl
  | x :: xs, tail, e, hplain, _, hstop => by
    have hx := hplain x (by simp)
    rw [List.cons_append, runLen, if_pos ⟨hx.1, Or.inr ⟨hx.2.1, hx.2.2⟩⟩]
    rw [runLen_plain xs tail _ (fun c hc => hplain c (by simp [hc]))
        (fun hde => of_decide_eq_true hde) hstop]
    simp only [List.length_cons]
    omega

/-- The shape of `getToken` on a literal run of plain characters followed by a
stopper. -/
theorem getToken_lit (s : List Char) (pos : Nat) (x : Char) (xs tail : List Char)
    (hdrop : List.drop pos s = x :: (xs ++ tail))
    (hx : x ≠ '<' ∧ x ≠ '>' ∧ x ≠ '?' ∧ x ≠ nulChar)
    (hxs : ∀ c ∈ xs, c ≠ nulChar ∧ c ≠ '<' ∧ c ≠ '>')
    (hstop : tail.headD nulChar = nulChar ∨ tail.headD nulChar = '<' ∨
      tail.headD nulChar = '>') :
    (getToken s pos).1.type = TokenType.Literal ∧
    (getToken s pos).2 = pos + 1 + xs.length := by
  have hc : chAt s pos = x := by
    rw [chAt_drop, hdrop]
    rfl
  have hdrop2 : List.drop (pos + 1) s = xs ++ tail := by
    rw [drop_succ_tail, hdrop]
    rfl
  rw [getToken, if_neg (by rw [hc]; exact hx.1), if_neg (by rw [hc]; exact hx.2.1),
      if_neg (by rw [hc]; exact hx.2.2.1), if_neg (by rw [hc]; exact hx.2.2.2)]
  refine ⟨rfl, ?_⟩
  rw [hdrop2, runLen_plain xs tail false hxs (fun h => absurd h (by decide)) hstop]

/-- C5, amended: compiling a pattern that reaches two captures back-to-back
with no literal separator (any pattern of the form `<n1><...`) fails with a
RUNTIME error whose diagnostic message embeds the pattern text starting at the
first capture's opening angle (identifying the position); the error kind in the
source is `std::runtime_error`, not `std::invalid_argument`. -/
theorem backToBack_fails_runtime (x : Char) (xs rest : List Char)
    (h2 : ∀ c ∈ x :: xs, c ≠ '<' ∧ c ≠ '>' ∧ c ≠ '?' ∧ c ≠ nulChar) :
    parseLogQlExpr ('<' :: (x :: xs) ++ '>' :: '<' :: rest) =
      Except.error (HlpErr.runtime
        (msgBackToBack ('<' :: (x :: xs) ++ '>' :: '<' :: rest) 0)) := by
  have hx := h2 x (by simp)
  have hxs : ∀ c ∈ xs, c ≠ nulChar ∧ c ≠ '<' ∧ c ≠ '>' := by
    intro c hc
    have := h2 c (by simp [hc])
    exact ⟨this.2.2.2, this.1, this.2.1⟩
  have hg0 : getToken ('<' :: (x :: xs) ++ '>' :: '<' :: rest) 0 =
      ({ text := ['<'], type := TokenType.OpenAngle }, 1) :=
    getToken_open _ 0 rfl
  have hlit := getToken_lit ('<' :: (x :: xs) ++ '>' :: '<' :: rest) 1 x xs ('>' :: '<' :: rest)
    rfl hx hxs (Or.inr (Or.inr rfl))
  have hd2 : List.drop (1 + 1 + xs.length) ('<' :: (x :: xs) ++ '>' :: '<' :: rest) =
      '>' :: '<' :: rest := by
    show List.drop (1 + 1 + xs.length) ('<' :: x :: (xs ++ '>' :: '<' :: rest)) = _
    rw [show 1 + 1 + xs.length = xs.length + 1 + 1 from by omega]
    rw [List.drop_succ_cons, List.drop_succ_cons]
    exact List.drop_left xs ('>' :: '<' :: rest)
  have hc2 : chAt ('<' :: (x :: xs) ++ '>' :: '<' :: rest) (1 + 1 + xs.length) = '>' := by
    rw [chAt_drop, hd2]
    rfl
  have hg2 := getToken_close ('<' :: (x :: xs) ++ '>' :: '<' :: rest) (1 + 1 + xs.length) hc2
  have hd3 : List.drop (1 + 1 + xs.length + 1) ('<' :: (x :: xs) ++ '>' :: '<' :: rest) =
      '<' :: rest := by
    rw [drop_succ_tail, hd2]
    rfl
  have hc3 : chAt ('<' :: (x :: xs) ++ '>' :: '<' :: rest) (1 + 1 + xs.length + 1) = '<' := by
    rw [chAt_drop, hd3]
    rfl
  have hg3 := getToken_open ('<' :: (x :: xs) ++ '>' :: '<' :: rest) (1 + 1 + xs.length + 1) hc3
  have e1 : (TokenType.Literal = TokenType.QuestionMark) = False := by simp
  have e2 : (TokenType.OpenAngle = TokenType.QuestionMark) = False := by simp
  have e3 : (TokenType.OpenAngle = TokenType.Literal) = False := by simp
  have e4 : (TokenType.OpenAngle = TokenType.EndOfExpr) = False := by simp
  have e5 : (false = true) = False := by simp
  have hcap : parseCapture ('<' :: (x :: xs) ++ '>' :: '<' :: rest) 1 =
      some ([{ text := (getToken ('<' :: (x :: xs) ++ '>' :: '<' :: rest) 1).1.text,
               type := ExpressionType.Capture, endToken := '<' }],
            1 + 1 + xs.length + 1) := by
    simp only [parseCapture, hlit.1, hlit.2, hg2, hg3, hc3, e1, e2, e5,
      eq_self_iff_true, if_true, if_false]
  show parseLoop ('<' :: (x :: xs) ++ '>' :: '<' :: rest)
      (('<' :: (x :: xs) ++ '>' :: '<' :: rest).length + 1) 0 [] = _
  rw [parseLoop]
  simp only [hg0, hcap, hg3, e2, e3, e4, eq_self_iff_true, if_true, if_false]

theorem backToBack_fails_runtime_witness :
    (∀ c ∈ ('a' :: ([] : List Char)), c ≠ '<' ∧ c ≠ '>' ∧ c ≠ '?' ∧ c ≠ nulChar) ∧
    parseLogQlExpr ('<' :: ('a' :: []) ++ '>' :: '<' :: "b>".data) =
      Except.error (HlpErr.runtime
        (msgBackToBack ('<' :: ('a' :: []) ++ '>' :: '<' :: "b>".data) 0)) :=
  ⟨by decide, backToBack_fails_runtime 'a' [] "b>".data (by decide)⟩
